import Mathlib

/-!
Verification of the struct_deser fixed-layout binary codec generator.

The development shallowly embeds the two crates:

* the runtime crate (src/lib.rs): per-type serialized byte lengths
  (SerializedByteLen), the unordered codecs for u8 / i8 / byte arrays
  (FromBytes / IntoBytes) and the byte-order-parameterized codecs for the
  multi-byte integers (FromBytesOrdered / IntoBytesOrdered, delegating to the
  byteorder crate);
* the derive crate (struct_deser-derive/src/lib.rs): attribute scanning
  (get_byte_order), identifier tagging (impl_identifier) and the schema
  compiler (impl_struct_deser) that emits from_bytes, into_bytes and the
  BYTE_LEN constant for a struct, slicing the buffer at cumulative offsets.

Machine integers are modelled as Nat (unsigned) and Int (signed, with
explicit two-complement conversion); buffers are List Nat whose elements are
bytes; generated code that panics is modelled with Option / Except.
-/

namespace StructDeser

/-- Byte order marker, as in the derive crate's internal ByteOrder enum. -/
inductive ByteOrder where
  | LE
  | BE
deriving DecidableEq, Repr

/-- The field types the runtime crate implements codecs for: the integer
primitives of src/lib.rs and the fixed-size byte arrays of impl_byte_arr. -/
inductive Ty where
  | u8
  | i8
  | u16
  | i16
  | u32
  | i32
  | u64
  | i64
  | byteArr (n : Nat)
deriving DecidableEq, Repr

/-- SerializedByteLen::BYTE_LEN of each primitive type, from the impls in
src/lib.rs (u8/i8 are 1, impl_from_into_bytes gives 2/4/8, byte arrays their
declared size). -/
def Ty.byteLen : Ty → Nat
  | .u8 => 1
  | .i8 => 1
  | .u16 => 2
  | .i16 => 2
  | .u32 => 4
  | .i32 => 4
  | .u64 => 8
  | .i64 => 8
  | .byteArr n => n

/-- Little-endian encoding of a value into n bytes, least significant first,
as the byteorder crate's write_uN with LE. -/
def writeLEBytes : Nat → Nat → List Nat
  | 0, _ => []
  | n + 1, v => v % 256 :: writeLEBytes n (v / 256)

/-- Little-endian decoding of a byte list, as the byteorder crate's read_uN
with LE. -/
def readLEBytes : List Nat → Nat
  | [] => 0
  | b :: bs => b + 256 * readLEBytes bs

/-- Order-parameterized write: big endian is the little-endian byte string
reversed (most significant byte first), matching the byteorder crate. -/
def writeOrdered (bo : ByteOrder) (n v : Nat) : List Nat :=
  match bo with
  | .LE => writeLEBytes n v
  | .BE => (writeLEBytes n v).reverse

/-- Order-parameterized read, inverse convention of writeOrdered. -/
def readOrdered (bo : ByteOrder) (bs : List Nat) : Nat :=
  match bo with
  | .LE => readLEBytes bs
  | .BE => readLEBytes bs.reverse

/-- Reinterpret a w-bit unsigned value as a two-complement signed value, as
the Rust cast bytes[0] as i8 and the signed reads of the byteorder crate. -/
def toSigned (w : Nat) (v : Nat) : Int :=
  if v < 2 ^ (w - 1) then (v : Int) else (v : Int) - 2 ^ w

/-- Reinterpret a signed value as a w-bit unsigned value, as the Rust cast
*self as u8 and the signed writes of the byteorder crate. -/
def toUnsigned (w : Nat) (v : Int) : Nat :=
  (v % ((2 : Int) ^ w)).toNat

/-- A resolved field of a derived struct: its declared type together with the
byte order returned by get_byte_order for its attributes. -/
structure Field where
  ty : Ty
  byteOrder : Option ByteOrder
deriving DecidableEq, Repr

/-- Runtime field values, one constructor per supported primitive type. -/
inductive Value where
  | u8 (v : Nat)
  | i8 (v : Int)
  | u16 (v : Nat)
  | i16 (v : Int)
  | u32 (v : Nat)
  | i32 (v : Int)
  | u64 (v : Nat)
  | i64 (v : Int)
  | byteArr (bs : List Nat)
deriving DecidableEq, Repr

/-- A value inhabits a field type: the constructor matches and the payload is
in the range of the corresponding Rust machine type (bytes below 256, a byte
array of the declared length). -/
def validValue : Ty → Value → Bool
  | .u8, .u8 v => v < 256
  | .i8, .i8 v => -128 ≤ v ∧ v < 128
  | .u16, .u16 v => v < 2 ^ 16
  | .i16, .i16 v => -(2 ^ 15) ≤ v ∧ v < 2 ^ 15
  | .u32, .u32 v => v < 2 ^ 32
  | .i32, .i32 v => -(2 ^ 31) ≤ v ∧ v < 2 ^ 31
  | .u64, .u64 v => v < 2 ^ 64
  | .i64, .i64 v => -(2 ^ 63) ≤ v ∧ v < 2 ^ 63
  | .byteArr n, .byteArr bs => bs.length = n ∧ ∀ b ∈ bs, b < 256
  | _, _ => false

/-- The trait impl the derive macro selects for a field exists: unordered
FromBytes/IntoBytes for u8, i8 and byte arrays (no byte-order attribute),
FromBytesOrdered/IntoBytesOrdered for the multi-byte integers (a byte-order
attribute present). Any other combination is a Rust compile error. -/
def fieldResolves (f : Field) : Bool :=
  match f.ty, f.byteOrder with
  | .u8, none => true
  | .i8, none => true
  | .byteArr _, none => true
  | .u16, some _ => true
  | .i16, some _ => true
  | .u32, some _ => true
  | .i32, some _ => true
  | .u64, some _ => true
  | .i64, some _ => true
  | _, _ => false

/-- The from_bytes call the derive macro emits for one field, applied to the
slice of the buffer the field owns. u8 reads bytes[0]; i8 reads bytes[0] as
i8; a byte array copies the slice (copy_from_slice checks the length); the
multi-byte integers call the byteorder read of the selected order, which
requires at least BYTE_LEN bytes. none models a panic or a missing impl. -/
def decodeField : Field → List Nat → Option Value
  | ⟨.u8, none⟩, bs => if 1 ≤ bs.length then some (.u8 (bs.headD 0)) else none
  | ⟨.i8, none⟩, bs => if 1 ≤ bs.length then some (.i8 (toSigned 8 (bs.headD 0))) else none
  | ⟨.byteArr n, none⟩, bs => if bs.length = n then some (.byteArr bs) else none
  | ⟨.u16, some bo⟩, bs => if 2 ≤ bs.length then some (.u16 (readOrdered bo (bs.take 2))) else none
  | ⟨.i16, some bo⟩, bs => if 2 ≤ bs.length then some (.i16 (toSigned 16 (readOrdered bo (bs.take 2)))) else none
  | ⟨.u32, some bo⟩, bs => if 4 ≤ bs.length then some (.u32 (readOrdered bo (bs.take 4))) else none
  | ⟨.i32, some bo⟩, bs => if 4 ≤ bs.length then some (.i32 (toSigned 32 (readOrdered bo (bs.take 4)))) else none
  | ⟨.u64, some bo⟩, bs => if 8 ≤ bs.length then some (.u64 (readOrdered bo (bs.take 8))) else none
  | ⟨.i64, some bo⟩, bs => if 8 ≤ bs.length then some (.i64 (toSigned 64 (readOrdered bo (bs.take 8)))) else none
  | _, _ => none

/-- The into_bytes call the derive macro emits for one field: the byte string
written into the slice the field owns. u8 writes the byte; i8 writes *self as
u8; a byte array is copied verbatim (copy_from_slice checks the length); the
multi-byte integers use the byteorder write of the selected order. -/
def encodeField : Field → Value → Option (List Nat)
  | ⟨.u8, none⟩, .u8 v => some [v]
  | ⟨.i8, none⟩, .i8 v => some [toUnsigned 8 v]
  | ⟨.byteArr n, none⟩, .byteArr bs => if bs.length = n then some bs else none
  | ⟨.u16, some bo⟩, .u16 v => some (writeOrdered bo 2 v)
  | ⟨.i16, some bo⟩, .i16 v => some (writeOrdered bo 2 (toUnsigned 16 v))
  | ⟨.u32, some bo⟩, .u32 v => some (writeOrdered bo 4 v)
  | ⟨.i32, some bo⟩, .i32 v => some (writeOrdered bo 4 (toUnsigned 32 v))
  | ⟨.u64, some bo⟩, .u64 v => some (writeOrdered bo 8 v)
  | ⟨.i64, some bo⟩, .i64 v => some (writeOrdered bo 8 (toUnsigned 64 v))
  | _, _ => none

/-- The BYTE_LEN constant the derive macro emits for a struct: the token
stream 0 + w0 + w1 + ... built field by field in declaration order, a left
fold of addition over the field widths. -/
def BYTE_LEN (fields : List Field) : Nat :=
  fields.foldl (fun acc f => acc + f.ty.byteLen) 0

/-- Sum of the field widths of a schema, the specification-level total. -/
def widths (fields : List Field) : Nat :=
  (fields.map (fun f => f.ty.byteLen)).sum

/-- The slice bytes[off..off+len] the derive macro takes for a field. -/
def sliceAt (bytes : List Nat) (off len : Nat) : List Nat :=
  (bytes.drop off).take len

/-- Overwrite the slice bytes[off..off+chunk.length] with chunk, the effect
of the emitted into_bytes call on the whole buffer. -/
def writeAt (bytes : List Nat) (off : Nat) (chunk : List Nat) : List Nat :=
  bytes.take off ++ chunk ++ bytes.drop (off + chunk.length)

/-- The field-by-field body of the emitted from_bytes: at offset off, decode
each field from its slice, advancing the offset by the field's BYTE_LEN. -/
def decodeFieldsFrom : List Field → List Nat → Nat → Option (List Value)
  | [], _, _ => some []
  | f :: fs, bytes, off => do
    let v ← decodeField f (sliceAt bytes off f.ty.byteLen)
    let vs ← decodeFieldsFrom fs bytes (off + f.ty.byteLen)
    return v :: vs

/-- The emitted from_bytes for a derived struct: assert_eq! on the buffer
length against BYTE_LEN (a panic on mismatch), then decode the fields at
cumulative offsets. -/
def from_bytes (fields : List Field) (bytes : List Nat) : Option (List Value) :=
  if bytes.length = BYTE_LEN fields then decodeFieldsFrom fields bytes 0 else none

/-- The field-by-field body of the emitted into_bytes: at offset off, write
each field's byte string into its slice, advancing the offset. -/
def encodeFieldsFrom : List Field → List Value → List Nat → Nat → Option (List Nat)
  | [], [], bytes, _ => some bytes
  | f :: fs, v :: vs, bytes, off => do
    let chunk ← encodeField f v
    encodeFieldsFrom fs vs (writeAt bytes off chunk) (off + f.ty.byteLen)
  | _, _, _, _ => none

/-- The emitted into_bytes for a derived struct: assert_eq! on the buffer
length against BYTE_LEN, then write the fields at cumulative offsets. -/
def into_bytes (fields : List Field) (vals : List Value) (bytes : List Nat) :
    Option (List Nat) :=
  if bytes.length = BYTE_LEN fields then encodeFieldsFrom fields vals bytes 0 else none

/-- Encoding into a fresh zeroed buffer of length BYTE_LEN, as the tests
build let mut bytes = [0; BYTE_LEN] before calling into_bytes. -/
def encodeToNewBuffer (fields : List Field) (vals : List Value) : Option (List Nat) :=
  into_bytes fields vals (List.replicate (BYTE_LEN fields) 0)

/-- A record value of a schema: one valid value per field, in order. -/
def ValidRecord : List Field → List Value → Bool
  | [], [] => true
  | f :: fs, v :: vs => validValue f.ty v && ValidRecord fs vs
  | _, _ => false

/-- Every field of the schema has the trait impls its generated code needs,
i.e. the derived code compiles. -/
def WellFormed (fields : List Field) : Bool :=
  fields.all fieldResolves

/-- Concatenation of the byte strings of all fields of a record, the wire
image declaration order produces. -/
def chunksOf : List Field → List Value → Option (List Nat)
  | [], [] => some []
  | f :: fs, v :: vs => do
    let c ← encodeField f v
    let rest ← chunksOf fs vs
    return c ++ rest
  | _, _ => none

/-- The running byte_len accumulator of the derive macro just before field i
is processed: the emitted start offset of field i. -/
def offsetOf (fields : List Field) (i : Nat) : Nat :=
  BYTE_LEN (fields.take i)

/-- The word of one field attribute, as seen by get_byte_order: the paths be
and le, or any other attribute. -/
inductive AttrWord where
  | be
  | le
  | other
deriving DecidableEq, Repr

/-- One iteration of the attribute loop of get_byte_order, translated with
its conflict checks placed after the assignments exactly as in the source. -/
def get_byte_order_step (bo : Option ByteOrder) (attr : AttrWord) :
    Except String (Option ByteOrder) :=
  match attr with
  | .be =>
    let bo := some ByteOrder.BE
    if bo = some ByteOrder.LE then
      .error "Conflicting byte order: you cannot specify both Little and Big endian"
    else .ok bo
  | .le =>
    let bo := some ByteOrder.LE
    if bo = some ByteOrder.BE then
      .error "Conflicting byte order: you cannot specify both Little and Big endian"
    else .ok bo
  | .other => .ok bo

/-- get_byte_order of the derive crate: scan the attributes in order,
starting from no byte order. -/
def get_byte_order (attrs : List AttrWord) : Except String (Option ByteOrder) :=
  attrs.foldlM get_byte_order_step none

/-- The byte-order markers among an attribute list, in order. -/
def markerOf : AttrWord → Option ByteOrder
  | .be => some ByteOrder.BE
  | .le => some ByteOrder.LE
  | .other => none

/-- The byte-order marker appearing last in an attribute list, if any. This
is the specification-level description against which get_byte_order is
compared. -/
def lastMarker (attrs : List AttrWord) : Option ByteOrder :=
  (attrs.filterMap markerOf).getLast?

/-- A declared field as the derive macro sees it: its type and its raw
attribute list. -/
structure RawField where
  ty : Ty
  attrs : List AttrWord
deriving DecidableEq, Repr

/-- Resolve one declared field: run get_byte_order on its attributes and pair
the result with the type, as the field loop of impl_struct_deser does. -/
def resolveField (rf : RawField) : Except String Field :=
  (get_byte_order rf.attrs).map (fun bo => ⟨rf.ty, bo⟩)

/-- Resolve all declared fields in declaration order. -/
def resolveFields (rfs : List RawField) : Except String (List Field) :=
  rfs.mapM resolveField

/-- The struct body shapes distinguished by impl_struct_deser: braced struct,
tuple struct, or unit struct (no field list at all). -/
inductive Body where
  | struct (fields : List RawField)
  | tuple (fields : List RawField)
  | unit
deriving DecidableEq, Repr

/-- A literal in an identifier attribute: a string literal or any other
literal kind. -/
inductive IdentLit where
  | str (s : String)
  | other
deriving DecidableEq, Repr

/-- impl_identifier of the derive crate, applied to the identifier and
identifier_type values found in the struct_deser attribute: both string
literals yield a binding, neither yields no binding, anything else panics. -/
def impl_identifier : Option IdentLit × Option IdentLit →
    Except String (Option (String × String))
  | (some (.str v), some (.str t)) => .ok (some (v, t))
  | (none, none) => .ok none
  | (some _, some _) => .error "Identifier and its type must be inside string"
  | _ => .error "Both identifier and type must be specified or none of them"

/-- The derive input for one struct: its identifier attribute values and its
body. -/
structure RecordDef where
  identAttrs : Option IdentLit × Option IdentLit
  body : Body
deriving DecidableEq, Repr

/-- What the derive macro emits for a struct: the optional identifier
binding and the resolved field list driving from_bytes, into_bytes and
BYTE_LEN. -/
structure CompiledRecord where
  identifier : Option (String × String)
  fields : List Field
deriving DecidableEq, Repr

/-- The field-list part of impl_struct_deser: braced and tuple structs
resolve their fields; a unit struct panics. -/
def compileBody : Body → Except String (List Field)
  | .struct rfs => resolveFields rfs
  | .tuple rfs => resolveFields rfs
  | .unit => .error "(De)serializing empty struct does not make sense"

/-- impl_struct_deser of the derive crate: impl_identifier first, then the
field walk and the body-shape check. -/
def impl_struct_deser (r : RecordDef) : Except String CompiledRecord := do
  let id ← impl_identifier r.identAttrs
  let fields ← compileBody r.body
  return ⟨id, fields⟩

/-- FromBytes for a byte array [u8; n] from impl_byte_arr: a fresh zero
array, then copy_from_slice from the input, which panics unless the lengths
agree. -/
def byteArr_from_bytes (n : Nat) (bytes : List Nat) : Option (List Nat) :=
  if bytes.length = (List.replicate n (0 : Nat)).length then some bytes else none

/-- IntoBytes for a byte array [u8; n] from impl_byte_arr: copy_from_slice
of the array into the output slice, which panics unless the lengths agree. -/
def byteArr_into_bytes (arr bytes : List Nat) : Option (List Nat) :=
  if arr.length = bytes.length then some arr else none

/-- The array sizes impl_byte_arr is instantiated at in src/lib.rs: every
size up to 256, then the powers of two up to 4194304. -/
def supportedByteArrLen (n : Nat) : Bool :=
  n ≤ 256 || n ∈ [512, 1024, 2048, 4096, 8192, 16384, 32768, 65536,
    131072, 262144, 524288, 1048576, 2097152, 4194304]

/-! Helper lemmas about the primitive codecs. -/

theorem writeLEBytes_length (n v : Nat) : (writeLEBytes n v).length = n := by
  induction n generalizing v with
  | zero => rfl
  | succ n ih => simp [writeLEBytes, ih]

theorem readLE_writeLE (n v : Nat) (h : v < 256 ^ n) :
    readLEBytes (writeLEBytes n v) = v := by
  induction n generalizing v with
  | zero =>
    simp [writeLEBytes, readLEBytes]
    omega
  | succ n ih =>
    have hdiv : v / 256 < 256 ^ n := by
      rw [Nat.div_lt_iff_lt_mul (by norm_num : 0 < 256)]
      calc v < 256 ^ (n + 1) := h
        _ = 256 ^ n * 256 := by ring
    rw [writeLEBytes, readLEBytes, ih _ hdiv]
    omega

theorem writeOrdered_length (bo : ByteOrder) (n v : Nat) :
    (writeOrdered bo n v).length = n := by
  cases bo <;> simp [writeOrdered, writeLEBytes_length]

theorem readOrdered_writeOrdered (bo : ByteOrder) (n v : Nat) (h : v < 256 ^ n) :
    readOrdered bo (writeOrdered bo n v) = v := by
  cases bo <;> simp [writeOrdered, readOrdered, List.reverse_reverse,
    readLE_writeLE n v h]

theorem toUnsigned_lt (w : Nat) (v : Int) : toUnsigned w v < 2 ^ w := by
  have hpos : (0 : Int) < 2 ^ w := by positivity
  have h1 : 0 ≤ v % 2 ^ w := Int.emod_nonneg v (by positivity)
  have h2 : v % 2 ^ w < 2 ^ w := Int.emod_lt_of_pos v hpos
  have : ((toUnsigned w v : Nat) : Int) < 2 ^ w := by
    rw [toUnsigned, Int.toNat_of_nonneg h1]
    exact h2
  exact_mod_cast this

theorem toSigned_toUnsigned (w : Nat) (v : Int) (hw : 0 < w)
    (h1 : -(2 ^ (w - 1)) ≤ v) (h2 : v < 2 ^ (w - 1)) :
    toSigned w (toUnsigned w v) = v := by
  have hsplit : (2 : Int) ^ w = 2 ^ (w - 1) * 2 := by
    conv_lhs => rw [show w = (w - 1) + 1 by omega]
    ring
  have hhalf : (0 : Int) < 2 ^ (w - 1) := by positivity
  rcases le_or_lt 0 v with hv | hv
  · have hmod : v % 2 ^ w = v := Int.emod_eq_of_lt hv (by omega)
    have htn : toUnsigned w v = v.toNat := by rw [toUnsigned, hmod]
    rw [htn, toSigned]
    have hlt : (v.toNat : Int) < 2 ^ (w - 1) := by
      rw [Int.toNat_of_nonneg hv]; exact h2
    have hltn : v.toNat < 2 ^ (w - 1) := by exact_mod_cast hlt
    rw [if_pos hltn, Int.toNat_of_nonneg hv]
  · have hmod : v % 2 ^ w = v + 2 ^ w := by
      have h3 : (v + 2 ^ w) % 2 ^ w = v + 2 ^ w :=
        Int.emod_eq_of_lt (by omega) (by omega)
      have h4 : (v + 2 ^ w) % 2 ^ w = v % 2 ^ w := by
        conv_lhs => rw [show v + 2 ^ w = v + 2 ^ w * 1 by ring]
        exact Int.add_mul_emod_self_left v (2 ^ w) 1
      rw [← h4, h3]
    have htn : toUnsigned w v = (v + 2 ^ w).toNat := by rw [toUnsigned, hmod]
    rw [htn, toSigned]
    have hge : ((v + 2 ^ w).toNat : Int) = v + 2 ^ w :=
      Int.toNat_of_nonneg (by omega)
    have hnotlt : ¬ (v + 2 ^ w).toNat < 2 ^ (w - 1) := by
      intro hc
      have : ((v + 2 ^ w).toNat : Int) < 2 ^ (w - 1) := by exact_mod_cast hc
      omega
    rw [if_neg hnotlt, hge]
    ring

/-! Helper lemmas about lengths, sums and offsets. -/

theorem BYTE_LEN_foldl (fields : List Field) (init : Nat) :
    fields.foldl (fun acc f => acc + f.ty.byteLen) init = init + widths fields := by
  induction fields generalizing init with
  | nil => simp [widths]
  | cons f fs ih => simp [widths, List.foldl_cons, ih, List.map_cons, List.sum_cons]; omega

theorem BYTE_LEN_eq_widths (fields : List Field) : BYTE_LEN fields = widths fields := by
  rw [BYTE_LEN, BYTE_LEN_foldl]
  omega

theorem widths_cons (f : Field) (fs : List Field) :
    widths (f :: fs) = f.ty.byteLen + widths fs := by
  simp [widths]

theorem offsetOf_take (fields : List Field) (i : Nat) :
    offsetOf fields i = ((fields.map (fun f => f.ty.byteLen)).take i).sum := by
  rw [offsetOf, BYTE_LEN_eq_widths, widths, List.map_take]

theorem sum_take_succ (l : List Nat) (i : Nat) (h : i < l.length) :
    (l.take (i + 1)).sum = (l.take i).sum + l.get ⟨i, h⟩ := by
  induction l generalizing i with
  | nil => simp at h
  | cons x xs ih =>
    cases i with
    | zero => simp
    | succ i =>
      simp only [List.take_succ_cons, List.sum_cons, List.get_cons_succ]
      rw [ih i (by simpa using h)]
      omega

theorem sum_take_prefix (m : List Nat) (i : Nat) : (m.take i).sum ≤ m.sum := by
  calc (m.take i).sum ≤ (m.take i).sum + (m.drop i).sum := Nat.le_add_right _ _
    _ = m.sum := by rw [← List.sum_append, List.take_append_drop]

theorem sum_take_mono (l : List Nat) {i j : Nat} (h : i ≤ j) :
    (l.take i).sum ≤ (l.take j).sum := by
  have h1 : l.take i = (l.take j).take i := by
    rw [List.take_take, min_eq_left h]
  rw [h1]
  exact sum_take_prefix (l.take j) i

/-! Per-field codec lemmas. -/

theorem read_take_write (bo : ByteOrder) (n v : Nat) (h : v < 256 ^ n) :
    readOrdered bo ((writeOrdered bo n v).take n) = v := by
  rw [List.take_of_length_le (le_of_eq (writeOrdered_length bo n v)),
    readOrdered_writeOrdered bo n v h]

theorem encodeField_length (f : Field) (v : Value) (c : List Nat)
    (h : encodeField f v = some c) : c.length = f.ty.byteLen := by
  obtain ⟨ty, bo⟩ := f
  cases ty <;> cases bo <;> cases v <;>
    simp_all [encodeField, Ty.byteLen, writeOrdered_length] <;>
    first
      | (obtain ⟨h1, h2⟩ := h; subst h2; exact h1)
      | (subst h; simp [writeOrdered_length])

theorem encodeField_isSome (f : Field) (v : Value) (hr : fieldResolves f = true)
    (hv : validValue f.ty v = true) : (encodeField f v).isSome := by
  obtain ⟨ty, bo⟩ := f
  cases ty <;> cases bo <;> cases v <;>
    simp_all [encodeField, fieldResolves, validValue]

theorem decodeField_isSome (f : Field) (bs : List Nat) (hr : fieldResolves f = true)
    (hlen : bs.length = f.ty.byteLen) : (decodeField f bs).isSome := by
  obtain ⟨ty, bo⟩ := f
  cases ty <;> cases bo <;>
    simp_all [decodeField, fieldResolves, Ty.byteLen]

theorem decodeField_encodeField (f : Field) (v : Value) (c : List Nat)
    (hv : validValue f.ty v = true) (h : encodeField f v = some c) :
    decodeField f c = some v := by
  obtain ⟨ty, bo⟩ := f
  cases ty <;> cases bo <;> cases v <;>
    simp_all [encodeField, decodeField, validValue]
  · subst h
    simp
  · subst h
    refine ⟨by simp, ?_⟩
    simp only [List.head?_cons, Option.getD_some]
    exact toSigned_toUnsigned 8 _ (by norm_num) (by omega) (by omega)
  · subst h
    exact ⟨by simp [writeOrdered_length], read_take_write _ 2 _ (by omega)⟩
  · rename_i bo v
    subst h
    refine ⟨by simp [writeOrdered_length], ?_⟩
    rw [read_take_write _ 2 _ (by have := toUnsigned_lt 16 v; omega)]
    exact toSigned_toUnsigned 16 _ (by norm_num) (by omega) (by omega)
  · subst h
    exact ⟨by simp [writeOrdered_length], read_take_write _ 4 _ (by omega)⟩
  · rename_i bo v
    subst h
    refine ⟨by simp [writeOrdered_length], ?_⟩
    rw [read_take_write _ 4 _ (by have := toUnsigned_lt 32 v; omega)]
    exact toSigned_toUnsigned 32 _ (by norm_num) (by omega) (by omega)
  · subst h
    exact ⟨by simp [writeOrdered_length], read_take_write _ 8 _ (by omega)⟩
  · rename_i bo v
    subst h
    refine ⟨by simp [writeOrdered_length], ?_⟩
    rw [read_take_write _ 8 _ (by have := toUnsigned_lt 64 v; omega)]
    exact toSigned_toUnsigned 64 _ (by norm_num) (by omega) (by omega)

/-! Record-level lemmas: the emitted encoder writes the concatenation of the
field byte strings, and the emitted decoder reads it back. -/

theorem chunksOf_some (fs : List Field) (vs : List Value)
    (hwf : WellFormed fs = true) (hv : ValidRecord fs vs = true) :
    ∃ cs, chunksOf fs vs = some cs ∧ cs.length = widths fs := by
  induction fs generalizing vs with
  | nil =>
    cases vs with
    | nil => exact ⟨[], rfl, rfl⟩
    | cons v vs => simp [ValidRecord] at hv
  | cons f fs ih =>
    cases vs with
    | nil => simp [ValidRecord] at hv
    | cons v vs =>
      simp only [WellFormed, List.all_cons, Bool.and_eq_true] at hwf
      simp only [ValidRecord, Bool.and_eq_true] at hv
      obtain ⟨c, hc⟩ := Option.isSome_iff_exists.mp
        (encodeField_isSome f v hwf.1 hv.1)
      obtain ⟨cs, hcs, hlen⟩ := ih vs hwf.2 hv.2
      refine ⟨c ++ cs, ?_, ?_⟩
      · simp [chunksOf, hc, hcs]
      · simp [hlen, encodeField_length f v c hc, widths_cons]

theorem encodeFieldsFrom_concat (fs : List Field) (vs : List Value)
    (bytes cs : List Nat) (off : Nat)
    (hcs : chunksOf fs vs = some cs)
    (hlen : bytes.length = off + widths fs) :
    encodeFieldsFrom fs vs bytes off = some (bytes.take off ++ cs) := by
  induction fs generalizing vs bytes cs off with
  | nil =>
    cases vs with
    | nil =>
      simp only [chunksOf, Option.some.injEq] at hcs
      subst hcs
      simp only [widths, List.map_nil, List.sum_nil, Nat.add_zero] at hlen
      simp [encodeFieldsFrom, List.take_of_length_le (le_of_eq hlen)]
    | cons v vs => simp [chunksOf] at hcs
  | cons f fs ih =>
    cases vs with
    | nil => simp [chunksOf] at hcs
    | cons v vs =>
      simp only [chunksOf, Option.bind_eq_bind, Option.bind_eq_some,
        Option.pure_def, Option.some.injEq] at hcs
      obtain ⟨c, hc, rest, hrest, hcat⟩ := hcs
      subst hcat
      have hw : c.length = f.ty.byteLen := encodeField_length f v c hc
      have hle : off + f.ty.byteLen ≤ bytes.length := by
        rw [hlen, widths_cons]; omega
      have htakelen : (bytes.take off).length = off := by
        simp [List.length_take]; omega
      have hnew : writeAt bytes off c = (bytes.take off ++ c) ++ bytes.drop (off + f.ty.byteLen) := by
        simp [writeAt, hw, List.append_assoc]
      have hnewlen : (writeAt bytes off c).length = (off + f.ty.byteLen) + widths fs := by
        rw [hnew]
        simp only [List.length_append, List.length_drop, htakelen, hw]
        rw [hlen, widths_cons]
        omega
      have hpre : (bytes.take off ++ c).length = off + f.ty.byteLen := by
        simp [htakelen, hw]
      have ihres := ih vs (writeAt bytes off c) rest (off + f.ty.byteLen) hrest hnewlen
      have htake : (writeAt bytes off c).take (off + f.ty.byteLen) = bytes.take off ++ c := by
        rw [hnew, ← hpre, List.take_left]
      simp only [encodeFieldsFrom, Option.bind_eq_bind, hc, Option.some_bind]
      rw [ihres, htake, List.append_assoc]

theorem decodeFieldsFrom_concat (fs : List Field) (vs : List Value)
    (pre cs post : List Nat)
    (hwf : WellFormed fs = true) (hv : ValidRecord fs vs = true)
    (hcs : chunksOf fs vs = some cs) :
    decodeFieldsFrom fs (pre ++ cs ++ post) pre.length = some vs := by
  induction fs generalizing vs pre cs with
  | nil =>
    cases vs with
    | nil =>
      simp only [chunksOf, Option.some.injEq] at hcs
      subst hcs
      simp [decodeFieldsFrom]
    | cons v vs => simp [ValidRecord] at hv
  | cons f fs ih =>
    cases vs with
    | nil => simp [ValidRecord] at hv
    | cons v vs =>
      simp only [WellFormed, List.all_cons, Bool.and_eq_true] at hwf
      simp only [ValidRecord, Bool.and_eq_true] at hv
      simp only [chunksOf, Option.bind_eq_bind, Option.bind_eq_some,
        Option.pure_def, Option.some.injEq] at hcs
      obtain ⟨c, hc, rest, hrest, hcat⟩ := hcs
      subst hcat
      have hw : c.length = f.ty.byteLen := encodeField_length f v c hc
      have hslice : sliceAt (pre ++ (c ++ rest) ++ post) pre.length f.ty.byteLen = c := by
        rw [sliceAt, List.append_assoc, List.drop_left, ← hw, List.append_assoc,
          List.take_left]
      have hdec : decodeField f c = some v := decodeField_encodeField f v c hv.1 hc
      have ihres := ih vs (pre ++ c) rest hwf.2 hv.2 hrest
      simp only [decodeFieldsFrom, Option.bind_eq_bind, hslice, hdec,
        Option.some_bind]
      have harr : (pre ++ c) ++ rest ++ post = pre ++ (c ++ rest) ++ post := by
        simp [List.append_assoc]
      have hlen2 : (pre ++ c).length = pre.length + f.ty.byteLen := by
        simp [hw]
      rw [harr, hlen2] at ihres
      rw [ihres]
      rfl

theorem decodeFieldsFrom_isSome (fs : List Field) (bytes : List Nat) (off : Nat)
    (hwf : WellFormed fs = true) (hlen : off + widths fs ≤ bytes.length) :
    (decodeFieldsFrom fs bytes off).isSome := by
  induction fs generalizing off with
  | nil => simp [decodeFieldsFrom]
  | cons f fs ih =>
    simp only [WellFormed, List.all_cons, Bool.and_eq_true] at hwf
    have hwcons := widths_cons f fs
    have hslicelen : (sliceAt bytes off f.ty.byteLen).length = f.ty.byteLen := by
      simp only [sliceAt, List.length_take, List.length_drop]
      omega
    obtain ⟨v, hv⟩ := Option.isSome_iff_exists.mp
      (decodeField_isSome f _ hwf.1 hslicelen)
    have ihres := ih (off + f.ty.byteLen) hwf.2 (by omega)
    obtain ⟨vs, hvs⟩ := Option.isSome_iff_exists.mp ihres
    simp [decodeFieldsFrom, hv, hvs]

/-! Attribute-scanning lemmas. -/

theorem get_byte_order_step_ok (bo : Option ByteOrder) (a : AttrWord) :
    get_byte_order_step bo a = .ok ((markerOf a).or bo) := by
  cases a <;> rfl

theorem get_byte_order_foldl (attrs : List AttrWord) (bo : Option ByteOrder) :
    attrs.foldlM get_byte_order_step bo =
      .ok (attrs.foldl (fun b a => (markerOf a).or b) bo) := by
  induction attrs generalizing bo with
  | nil => rfl
  | cons a l ih =>
    rw [List.foldlM_cons, get_byte_order_step_ok]
    simp only [List.foldl_cons]
    rw [← ih ((markerOf a).or bo)]
    rfl

theorem foldl_or_getLast (attrs : List AttrWord) (bo : Option ByteOrder) :
    attrs.foldl (fun b a => (markerOf a).or b) bo =
      ((attrs.filterMap markerOf).getLast?).or bo := by
  induction attrs generalizing bo with
  | nil => simp
  | cons a l ih =>
    rw [List.foldl_cons, ih]
    cases ha : markerOf a with
    | none => simp [List.filterMap_cons, ha]
    | some m =>
      simp only [List.filterMap_cons, ha, List.getLast?_cons]
      cases h : (l.filterMap markerOf).getLast? <;> simp [h]

theorem get_byte_order_eq_lastMarker (attrs : List AttrWord) :
    get_byte_order attrs = .ok (lastMarker attrs) := by
  rw [get_byte_order, get_byte_order_foldl, foldl_or_getLast, lastMarker]
  cases (attrs.filterMap markerOf).getLast? <;> rfl

/-! Offset lemmas. -/

theorem offsetOf_succ (s : List Field) (i : Nat) (h : i < s.length) :
    offsetOf s (i + 1) = offsetOf s i + (s.get ⟨i, h⟩).ty.byteLen := by
  rw [offsetOf_take, offsetOf_take]
  have hl : i < (s.map (fun f => f.ty.byteLen)).length := by simpa using h
  rw [sum_take_succ _ i hl]
  simp

theorem offsetOf_mono (s : List Field) {i j : Nat} (h : i ≤ j) :
    offsetOf s i ≤ offsetOf s j := by
  rw [offsetOf_take, offsetOf_take]
  exact sum_take_mono _ h

theorem offsetOf_length (s : List Field) : offsetOf s s.length = BYTE_LEN s := by
  rw [offsetOf, List.take_length]

/-! Claim theorems. -/

/-- C1: for every record type the schema compiler generates (a well-formed
field list) and every record value of that type, encoding into a fresh zeroed
buffer of length BYTE_LEN succeeds, and decoding the resulting buffer yields
the original record. -/
theorem encode_decode_round_trip (s : List Field) (vals : List Value)
    (hwf : WellFormed s = true) (hv : ValidRecord s vals = true) :
    ∃ buf, encodeToNewBuffer s vals = some buf ∧ from_bytes s buf = some vals := by
  obtain ⟨cs, hcs, hcslen⟩ := chunksOf_some s vals hwf hv
  have hzlen : (List.replicate (BYTE_LEN s) (0 : Nat)).length = 0 + widths s := by
    simp [BYTE_LEN_eq_widths]
  have henc := encodeFieldsFrom_concat s vals (List.replicate (BYTE_LEN s) 0) cs 0 hcs hzlen
  refine ⟨cs, ?_, ?_⟩
  · rw [encodeToNewBuffer, into_bytes, if_pos (by simp)]
    simpa using henc
  · rw [from_bytes, if_pos (by rw [hcslen, BYTE_LEN_eq_widths])]
    have hdec := decodeFieldsFrom_concat s vals [] cs [] hwf hv hcs
    simpa using hdec

/-- C1 witness: the round trip at a concrete two-field schema and record. -/
theorem encode_decode_round_trip_witness :
    WellFormed [⟨Ty.u16, some ByteOrder.LE⟩, ⟨Ty.u8, none⟩] = true ∧
    ValidRecord [⟨Ty.u16, some ByteOrder.LE⟩, ⟨Ty.u8, none⟩]
      [Value.u16 300, Value.u8 7] = true ∧
    ∃ buf, encodeToNewBuffer [⟨Ty.u16, some ByteOrder.LE⟩, ⟨Ty.u8, none⟩]
        [Value.u16 300, Value.u8 7] = some buf ∧
      from_bytes [⟨Ty.u16, some ByteOrder.LE⟩, ⟨Ty.u8, none⟩] buf =
        some [Value.u16 300, Value.u8 7] :=
  ⟨by decide, by decide,
    encode_decode_round_trip _ _ (by decide) (by decide)⟩

/-- C2: the little-endian/big-endian pair schemas of the byte-order test,
with both fields set to 42, encode to the expected byte images at widths
2, 4 and 8. -/
theorem byte_order_fidelity_concrete :
    encodeToNewBuffer [⟨Ty.u16, some ByteOrder.LE⟩, ⟨Ty.u16, some ByteOrder.BE⟩]
        [Value.u16 42, Value.u16 42] = some [42, 0, 0, 42] ∧
    encodeToNewBuffer [⟨Ty.u32, some ByteOrder.LE⟩, ⟨Ty.u32, some ByteOrder.BE⟩]
        [Value.u32 42, Value.u32 42] = some [42, 0, 0, 0, 0, 0, 0, 42] ∧
    encodeToNewBuffer [⟨Ty.u64, some ByteOrder.LE⟩, ⟨Ty.u64, some ByteOrder.BE⟩]
        [Value.u64 42, Value.u64 42] =
      some [42, 0, 0, 0, 0, 0, 0, 0, 0, 0, 0, 0, 0, 0, 0, 42] := by
  refine ⟨?_, ?_, ?_⟩ <;> decide

/-- C3: the emitted BYTE_LEN constant equals the sum of the per-type
BYTE_LEN values of the fields, in declaration order. -/
theorem byte_len_additivity (s : List Field) :
    BYTE_LEN s = (s.map (fun f => f.ty.byteLen)).sum :=
  BYTE_LEN_eq_widths s

/-- C4 counterexample: a well-formed two-field schema whose fields are both
zero-width byte arrays has both start offsets equal to 0, so start offsets
are not strictly increasing. -/
theorem offsets_strictly_increasing_cex :
    WellFormed [⟨Ty.byteArr 0, none⟩, ⟨Ty.byteArr 0, none⟩] = true ∧
    ([⟨Ty.byteArr 0, none⟩, ⟨Ty.byteArr 0, none⟩] : List Field).length = 2 ∧
    ¬ (offsetOf [⟨Ty.byteArr 0, none⟩, ⟨Ty.byteArr 0, none⟩] 0 <
        offsetOf [⟨Ty.byteArr 0, none⟩, ⟨Ty.byteArr 0, none⟩] 1) := by
  refine ⟨by decide, by decide, by decide⟩

/-- C4 amended: field i owns the byte range starting at the sum of the
widths of fields before it; offsets are contiguous, non-decreasing,
non-overlapping, and cover exactly BYTE_LEN; start offsets are strictly
increasing when every field has positive width. -/
theorem field_offsets_amended (s : List Field) :
    (∀ i (h : i < s.length),
        offsetOf s (i + 1) = offsetOf s i + (s.get ⟨i, h⟩).ty.byteLen) ∧
    (∀ i j, i ≤ j → offsetOf s i ≤ offsetOf s j) ∧
    (∀ i j (hi : i < s.length), i < j →
        offsetOf s i + (s.get ⟨i, hi⟩).ty.byteLen ≤ offsetOf s j) ∧
    offsetOf s s.length = BYTE_LEN s ∧
    ((∀ f ∈ s, 0 < f.ty.byteLen) → ∀ i j, i < j → j ≤ s.length →
        offsetOf s i < offsetOf s j) := by
  refine ⟨offsetOf_succ s, fun i j h => offsetOf_mono s h, ?_, offsetOf_length s, ?_⟩
  · intro i j hi hij
    rw [← offsetOf_succ s i hi]
    exact offsetOf_mono s hij
  · intro hpos i j hij hj
    have hi : i < s.length := lt_of_lt_of_le hij hj
    have hw : 0 < (s.get ⟨i, hi⟩).ty.byteLen := hpos _ (s.get_mem i hi)
    calc offsetOf s i < offsetOf s i + (s.get ⟨i, hi⟩).ty.byteLen := by omega
      _ = offsetOf s (i + 1) := (offsetOf_succ s i hi).symm
      _ ≤ offsetOf s j := offsetOf_mono s hij

/-- C4 witness: the amended offset properties instantiated at a concrete
all-positive-width schema. -/
theorem field_offsets_amended_witness :
    offsetOf [⟨Ty.u8, none⟩, ⟨Ty.u16, some ByteOrder.LE⟩] 1 <
      offsetOf [⟨Ty.u8, none⟩, ⟨Ty.u16, some ByteOrder.LE⟩] 2 :=
  (field_offsets_amended _).2.2.2.2 (by decide) 1 2 (by decide) (by decide)

/-- C5: for a compiled record type and a type-correct record value, the
emitted from_bytes and into_bytes succeed exactly when the buffer length
equals BYTE_LEN; any shorter or longer buffer makes both fail. -/
theorem length_mismatch_rejection (s : List Field) (vals : List Value)
    (bytes : List Nat)
    (hwf : WellFormed s = true) (hv : ValidRecord s vals = true) :
    ((from_bytes s bytes).isSome ↔ bytes.length = BYTE_LEN s) ∧
    ((into_bytes s vals bytes).isSome ↔ bytes.length = BYTE_LEN s) := by
  constructor
  · constructor
    · intro h
      by_contra hne
      rw [from_bytes, if_neg hne] at h
      simp at h
    · intro heq
      rw [from_bytes, if_pos heq]
      exact decodeFieldsFrom_isSome s bytes 0 hwf
        (by rw [heq, BYTE_LEN_eq_widths]; omega)
  · constructor
    · intro h
      by_contra hne
      rw [into_bytes, if_neg hne] at h
      simp at h
    · intro heq
      obtain ⟨cs, hcs, _⟩ := chunksOf_some s vals hwf hv
      rw [into_bytes, if_pos heq,
        encodeFieldsFrom_concat s vals bytes cs 0 hcs
          (by rw [heq, BYTE_LEN_eq_widths]; omega)]
      rfl

/-- C5 witness: the success condition instantiated at a concrete one-field
schema and buffer. -/
theorem length_mismatch_rejection_witness :
    ((from_bytes [⟨Ty.u8, none⟩] [5, 6]).isSome ↔
      ([5, 6] : List Nat).length = BYTE_LEN [⟨Ty.u8, none⟩]) ∧
    ((into_bytes [⟨Ty.u8, none⟩] [Value.u8 5] [5, 6]).isSome ↔
      ([5, 6] : List Nat).length = BYTE_LEN [⟨Ty.u8, none⟩]) :=
  length_mismatch_rejection _ _ _ (by decide) (by decide)

/-- C6 (code defect evidence): a field attribute list carrying both markers
does not make get_byte_order fail; the scan returns the later marker, and
field resolution succeeds, in both marker orders. The conflicting-byte-order
panic in the source is unreachable because each check compares the variable
just after it was overwritten. -/
theorem conflicting_byte_order_not_rejected :
    get_byte_order [AttrWord.le, AttrWord.be] = .ok (some ByteOrder.BE) ∧
    get_byte_order [AttrWord.be, AttrWord.le] = .ok (some ByteOrder.LE) ∧
    resolveField ⟨Ty.u16, [AttrWord.le, AttrWord.be]⟩ =
      .ok ⟨Ty.u16, some ByteOrder.BE⟩ :=
  ⟨rfl, rfl, rfl⟩

/-- C7 counterexample: records with zero fields declared with braces or
parentheses are accepted by impl_struct_deser, so a record type with zero
fields does not always fail construction. -/
theorem zero_field_struct_accepted_cex :
    impl_struct_deser ⟨(none, none), Body.struct []⟩ = .ok ⟨none, []⟩ ∧
    impl_struct_deser ⟨(none, none), Body.tuple []⟩ = .ok ⟨none, []⟩ :=
  ⟨rfl, rfl⟩

/-- C7 amended: only unit record declarations (no field list at all) always
fail construction; a zero-width byte-block field is accepted and contributes
0 to the offset sequence. -/
theorem empty_struct_amended :
    (∀ ids, ∃ e, impl_struct_deser ⟨ids, Body.unit⟩ = .error e) ∧
    impl_struct_deser ⟨(none, none), Body.struct [⟨Ty.byteArr 0, []⟩]⟩ =
      .ok ⟨none, [⟨Ty.byteArr 0, none⟩]⟩ ∧
    (∀ s i (h : i < s.length), (s.get ⟨i, h⟩).ty.byteLen = 0 →
        offsetOf s (i + 1) = offsetOf s i) := by
  refine ⟨?_, rfl, ?_⟩
  · intro ids
    rcases h1 : impl_identifier ids with e1 | i1
    · exact ⟨e1, by simp only [impl_struct_deser, h1]; rfl⟩
    · exact ⟨"(De)serializing empty struct does not make sense",
        by simp only [impl_struct_deser, h1, compileBody]; rfl⟩
  · intro s i h h0
    rw [offsetOf_succ s i h, h0]
    omega

/-- C7 witness: the zero-width offset contribution at a concrete schema. -/
theorem empty_struct_amended_witness :
    offsetOf [⟨Ty.byteArr 0, none⟩, ⟨Ty.u8, none⟩] 1 =
      offsetOf [⟨Ty.byteArr 0, none⟩, ⟨Ty.u8, none⟩] 0 :=
  (empty_struct_amended).2.2 _ 0 (by decide) (by decide)

theorem impl_struct_deser_ok_fields (ids : Option IdentLit × Option IdentLit)
    (b : Body) (c : CompiledRecord) (h : impl_struct_deser ⟨ids, b⟩ = .ok c) :
    compileBody b = .ok c.fields := by
  rcases h1 : impl_identifier ids with e1 | i1 <;>
    simp only [impl_struct_deser, h1] at h
  · have hbad : (Except.error e1 : Except String CompiledRecord) = Except.ok c := h
    simp at hbad
  · rcases h2 : compileBody b with e2 | fl <;> simp only [h2] at h
    · have hbad : (Except.error e2 : Except String CompiledRecord) = Except.ok c := h
      simp at hbad
    · have hok : Except.ok (ε := String) (CompiledRecord.mk i1 fl) = Except.ok c := h
      obtain rfl := Except.ok.inj hok
      rfl

/-- C8: two record definitions with the same body but different identifier
attributes compile to the same field list, hence identical BYTE_LEN and
identical from_bytes and into_bytes behavior; the identifier consumes no
buffer space. -/
theorem identifier_independence (idA idB : Option IdentLit × Option IdentLit)
    (b : Body) (cA cB : CompiledRecord)
    (hA : impl_struct_deser ⟨idA, b⟩ = .ok cA)
    (hB : impl_struct_deser ⟨idB, b⟩ = .ok cB) :
    cA.fields = cB.fields ∧
    BYTE_LEN cA.fields = BYTE_LEN cB.fields ∧
    (∀ bytes, from_bytes cA.fields bytes = from_bytes cB.fields bytes) ∧
    (∀ vals bytes, into_bytes cA.fields vals bytes = into_bytes cB.fields vals bytes) := by
  have h1 := impl_struct_deser_ok_fields idA b cA hA
  have h2 := impl_struct_deser_ok_fields idB b cB hB
  have hf : cA.fields = cB.fields := by
    rw [h1] at h2
    simpa using h2
  exact ⟨hf, by rw [hf], fun bytes => by rw [hf], fun vals bytes => by rw [hf]⟩

/-- C8 witness: a record with an identifier binding and the same record
without one share their compiled field list. -/
theorem identifier_independence_witness :
    (⟨some ("42", "u8"), [⟨Ty.u8, none⟩]⟩ : CompiledRecord).fields =
      (⟨none, [⟨Ty.u8, none⟩]⟩ : CompiledRecord).fields :=
  (identifier_independence
    (some (IdentLit.str "42"), some (IdentLit.str "u8")) (none, none)
    (Body.struct [⟨Ty.u8, []⟩])
    ⟨some ("42", "u8"), [⟨Ty.u8, none⟩]⟩ ⟨none, [⟨Ty.u8, none⟩]⟩
    rfl rfl).1

/-- C9: attribute scanning yields the byte-order marker appearing last in
the attribute list, and field resolution installs exactly that order in the
resolved field the generated codec is built from. -/
theorem last_marker_wins (rf : RawField) :
    resolveField rf = .ok ⟨rf.ty, lastMarker rf.attrs⟩ := by
  rw [resolveField, get_byte_order_eq_lastMarker]
  rfl

/-- C10: for a supported byte-array type, from_bytes and into_bytes fail by
a checked panic exactly when the slice length differs from the array length,
and at the exact length from_bytes returns the slice bytes and into_bytes
writes the array bytes. -/
theorem byte_arr_codec_safety (n : Nat) (arr bytes : List Nat)
    (_hsupp : supportedByteArrLen n = true) (harr : arr.length = n) :
    ((byteArr_from_bytes n bytes).isSome ↔ bytes.length = n) ∧
    (bytes.length = n → byteArr_from_bytes n bytes = some bytes) ∧
    ((byteArr_into_bytes arr bytes).isSome ↔ bytes.length = n) ∧
    (bytes.length = n → byteArr_into_bytes arr bytes = some arr) := by
  simp only [byteArr_from_bytes, byteArr_into_bytes, List.length_replicate, harr]
  by_cases h : bytes.length = n
  · simp [h]
  · have h2 : ¬ n = bytes.length := fun hc => h hc.symm
    simp [h, h2]

/-- C10 witness: the acceptance condition at width 2 with a mismatched and a
matched slice. -/
theorem byte_arr_codec_safety_witness :
    ((byteArr_from_bytes 2 [1, 2, 3]).isSome ↔ ([1, 2, 3] : List Nat).length = 2) ∧
    byteArr_into_bytes [9, 9] [1, 2] = some [9, 9] :=
  ⟨(byte_arr_codec_safety 2 [9, 9] [1, 2, 3] (by decide) (by decide)).1,
    (byte_arr_codec_safety 2 [9, 9] [1, 2] (by decide) (by decide)).2.2.2 (by decide)⟩

end StructDeser
